import Mathlib

/-!
# One-dimensional wave solver on a symmetric heap (`wave.cpp`)

A shallow embedding of the kernels `wave_update`, `initialize`,
`check_solution` and of the host code of `main` in `wave-checkpoint.cpp`.

Conventions of the embedding.

* `float` arithmetic is taken over an exact field `K`; `std::sin`, `std::sqrt`
  and `M_PI` are parameters (`sinF`, `sqrtF`, `pi`).
* C `int` values (`idx`, `N`, `my_pe`, `n_pes`) are `Int`.  In every range used
  below (`0 ≤ idx`, `1 ≤ N`, `0 ≤ my_pe < n_pes`) the source computes only
  `idx - 1`, `idx + 1`, `N - 1`, `my_pe - 1`, `my_pe + 1`, `n_pes - 1` under
  guards that keep them inside the `int` range, so no wrap-around is modelled.
* A symmetric array is a function `pe → index → value`: the instance of the
  array that lives on each PE.  A local access `a[i]` on PE `p` reads `a p i`,
  and `nvshmem_float_g(&a[i], q)` reads `a q i`.
* A kernel thread returns the store it performs together with the list of the
  memory accesses it makes, in program order.
* A launch is taken with all PEs at the same time step: every thread reads the
  heap as it is before the launch.  The interleaving of the PEs is outside the
  embedding.
* `main` declares `N` twice (lines 84 and 96); the embedding uses the second
  declaration, `N = NUM_POINTS / n_pes`, the one every later line relies on.
-/

namespace Wave

/-! ## Constants -/

/-- Line 14: `#define NUM_POINTS 1048576`. -/
def NUM_POINTS : Int := 1048576

/-- Line 114: `int threads_per_block = 256;`. -/
def threads_per_block : Int := 256

/-- Line 115: `int blocks = (N + threads_per_block - 1) / threads_per_block;`
(C division truncates toward zero). -/
def blocks (N : Int) : Int := Int.tdiv (N + threads_per_block - 1) threads_per_block

/-- Number of threads of a launch `<<<blocks, threads_per_block>>>`; thread
indices `threadIdx.x + blockIdx.x * blockDim.x` range over `[0, num_threads N)`. -/
def num_threads (N : Int) : Nat := (blocks N * threads_per_block).toNat

/-- Line 96: `const int N = NUM_POINTS / n_pes;`. -/
def slice_size (n_pes : Int) : Int := Int.tdiv NUM_POINTS n_pes

/-! ## Memory accesses of a kernel thread -/

/-- The three array parameters of `wave_update`. -/
inductive Arr
  | u
  | u_old
  | u_older
deriving DecidableEq, Repr

/-- The statement of `wave_update` that performs an access: the assignment to
`u_old_left` (lines 42-48), the assignment to `u_old_right` (lines 50-56), or
the stencil assignment (lines 58-59). -/
inductive Stmt
  | left
  | right
  | stencil
deriving DecidableEq, Repr

/-- One memory access: a local load `a[i]`, a one-sided remote read
`nvshmem_float_g(&a[i], pe)`, or a local store `a[i] = ...`. -/
inductive Access
  | load (s : Stmt) (a : Arr) (i : Int)
  | get (s : Stmt) (a : Arr) (i : Int) (pe : Int)
  | store (s : Stmt) (a : Arr) (i : Int)
deriving DecidableEq, Repr

/-- The statement an access belongs to. -/
def Access.stmt : Access → Stmt
  | .load s _ _ => s
  | .get s _ _ _ => s
  | .store s _ _ => s

/-- Whether an access is a remote read. -/
def Access.isRemote : Access → Bool
  | .get _ _ _ _ => true
  | _ => false

/-- An access is in bounds when its element index lies in `[0, N)` and, for a
remote read, its target rank lies in `[0, n_pes)`. -/
def Access.inBounds (N n_pes : Int) : Access → Prop
  | .load _ _ i => 0 ≤ i ∧ i < N
  | .get _ _ i pe => (0 ≤ pe ∧ pe < n_pes) ∧ (0 ≤ i ∧ i < N)
  | .store _ _ i => 0 ≤ i ∧ i < N

instance (N n_pes : Int) (a : Access) : Decidable (a.inBounds N n_pes) := by
  cases a <;> unfold Access.inBounds <;> infer_instance

/-- What one thread of a kernel does: the element it stores (index and value),
if any, and its memory accesses in program order. -/
structure ThreadResult (K : Type) where
  store : Option (Int × K)
  accesses : List Access

/-! ## `wave_update` (lines 16-61) -/

/-- Lines 22-29: the flag `on_boundary`. -/
def on_boundary (N my_pe n_pes idx : Int) : Bool :=
  if my_pe = 0 ∧ idx = 0 then true
  else if my_pe = n_pes - 1 ∧ idx = N - 1 then true
  else false

/-- Lines 42-48: the value assigned to `u_old_left` and the access made. -/
def fetch_left {K : Type} (u_old : Int → Int → K) (N my_pe idx : Int) : K × Access :=
  if idx = 0 then
    (u_old (my_pe - 1) (N - 1), Access.get Stmt.left Arr.u_old (N - 1) (my_pe - 1))
  else
    (u_old my_pe (idx - 1), Access.load Stmt.left Arr.u_old (idx - 1))

/-- Lines 50-56: the value assigned to `u_old_right` and the access made. -/
def fetch_right {K : Type} (u_old : Int → Int → K) (N my_pe idx : Int) : K × Access :=
  if idx = N - 1 then
    (u_old (my_pe + 1) 0, Access.get Stmt.right Arr.u_old 0 (my_pe + 1))
  else
    (u_old my_pe (idx + 1), Access.load Stmt.right Arr.u_old (idx + 1))

/-- Lines 16-61: the thread of `wave_update` with index `idx` on PE `my_pe`.
`u_old` is the symmetric array passed as second argument (every PE's
instance), `u_older` the local array passed as third argument. -/
def wave_update_thread {K : Type} [Field K] (u_old : Int → Int → K) (u_older : Int → K)
    (dtdxsq : K) (N my_pe n_pes idx : Int) : ThreadResult K :=
  if idx < N ∧ on_boundary N my_pe n_pes idx = false then
    let l := fetch_left u_old N my_pe idx
    let r := fetch_right u_old N my_pe idx
    { store := some (idx, 2 * u_old my_pe idx - u_older idx
                        + dtdxsq * (r.1 - 2 * u_old my_pe idx + l.1))
      accesses := [l.2, r.2,
                   Access.load Stmt.stencil Arr.u_old idx,
                   Access.load Stmt.stencil Arr.u_older idx,
                   Access.load Stmt.stencil Arr.u_old idx,
                   Access.store Stmt.stencil Arr.u idx] }
  else
    { store := none, accesses := [] }

/-! ## Kernel launches -/

/-- A launch of `n` threads on one PE: every thread of index in `[0, n)`
performs its store on the array `a`.  The threads of the kernels below store
to pairwise distinct elements and read none of the elements stored, so the
order in which the stores are applied is immaterial. -/
def launch {K : Type} (n : Nat) (thread : Int → Option (Int × K)) (a : Int → K) : Int → K :=
  (List.range n).foldl
    (fun acc (k : Nat) => match thread (k : Int) with
      | some (j, v) => Function.update acc j v
      | none => acc) a

/-- The state of the job between two kernel launches: the symmetric heap
(`mem pe b i` is element `i` of allocation `b` on PE `pe`) and the values of
the three pointer variables `u`, `u_old`, `u_older` of `main` (lines 100-110).
Every PE performs the same allocations and the same swaps, so the pointer
values agree on all PEs. -/
structure Job (β K : Type) where
  mem : Int → β → Int → K
  u : β
  u_old : β
  u_older : β

/-- A kernel launched by every PE of `[0, n_pes)` on its instance of the
allocation `p`, with `n` threads per PE. -/
def Job.launch_on {β K : Type} [DecidableEq β] (s : Job β K) (n_pes : Int) (p : β) (n : Nat)
    (thread : Int → Int → Option (Int × K)) : Job β K :=
  { s with mem := fun pe b =>
      if 0 ≤ pe ∧ pe < n_pes ∧ b = p then launch n (thread pe) (s.mem pe b) else s.mem pe b }

/-- Line 146: `wave_update<<<blocks, threads_per_block>>>(u, u_old, u_older, dtdxsq, N)`
run by every PE; reads see the heap as it is before the launch. -/
def Job.wave_update {β K : Type} [DecidableEq β] [Field K] (s : Job β K) (dtdxsq : K)
    (N n_pes : Int) : Job β K :=
  s.launch_on n_pes s.u (num_threads N)
    (fun pe idx =>
      (wave_update_thread (fun q i => s.mem q s.u_old i) (s.mem pe s.u_older)
        dtdxsq N pe n_pes idx).store)

/-- Line 150: `std::swap(u_old, u_older)`. -/
def Job.swap_old_older {β K : Type} (s : Job β K) : Job β K :=
  { s with u_old := s.u_older, u_older := s.u_old }

/-- Line 153: `std::swap(u, u_old)`. -/
def Job.swap_u_old {β K : Type} (s : Job β K) : Job β K :=
  { s with u := s.u_old, u_old := s.u }

/-- Lines 149-153: the buffer rotation at the end of a time step. -/
def Job.advance {β K : Type} (s : Job β K) : Job β K :=
  s.swap_old_older.swap_u_old

/-- Lines 146-153: one time step on the grid, `wave_update` followed by the two
pointer swaps. -/
def Job.grid_step {β K : Type} [DecidableEq β] [Field K] (N n_pes : Int) (s : Job β K)
    (dtdxsq : K) : Job β K :=
  (s.wave_update dtdxsq N n_pes).advance

/-- Several time steps in a row; `ds` lists the value of `dtdxsq` in each. -/
def Job.grid_steps {β K : Type} [DecidableEq β] [Field K] (N n_pes : Int) (ds : List K)
    (s : Job β K) : Job β K :=
  ds.foldl (Job.grid_step N n_pes) s

/-! ## `initialize` (lines 63-70) and its three launches (lines 117-119) -/

/-- Lines 68 and 77: `std::sin(2.0f * M_PI * idx / static_cast<float>(NUM_POINTS - 1))`. -/
def sine_sample {K : Type} [Field K] (sinF : K → K) (pi : K) (idx : Int) : K :=
  sinF (2 * pi * (idx : K) / ((NUM_POINTS - 1 : Int) : K))

/-- Lines 63-70: the thread of the kernel `initialize` with index `idx`. -/
def initialize_thread {K : Type} [Field K] (sinF : K → K) (pi : K) (N idx : Int) :
    Option (Int × K) :=
  if idx < N then some (idx, sine_sample sinF pi idx) else none

/-- Lines 117-119: the three launches of `initialize`, on `u_older`, `u_old`
and `u`, with `N = NUM_POINTS / n_pes`. -/
def Job.initialize_all {β K : Type} [DecidableEq β] [Field K] (sinF : K → K) (pi : K)
    (n_pes : Int) (s : Job β K) : Job β K :=
  let N := slice_size n_pes
  let s1 := s.launch_on n_pes s.u_older (num_threads N) (fun _ => initialize_thread sinF pi N)
  let s2 := s1.launch_on n_pes s1.u_old (num_threads N) (fun _ => initialize_thread sinF pi N)
  s2.launch_on n_pes s2.u (num_threads N) (fun _ => initialize_thread sinF pi N)

/-! ## `check_solution` (lines 72-81) -/

/-- Lines 72-81: the effect of the thread with index `idx` on the accumulator
`*l2_norm` (the `atomicAdd` of line 79). -/
def check_solution_thread {K : Type} [Field K] (sinF : K → K) (pi : K) (u : Int → K)
    (N idx : Int) (l2_norm : K) : K :=
  if idx < N then
    let u_correct := sine_sample sinF pi idx
    let l2 := (u idx - u_correct) * (u idx - u_correct)
    l2_norm + l2
  else l2_norm

/-- Line 171: a launch of `check_solution` with `n` threads; the atomic
additions are applied one after the other. -/
def check_solution_launch {K : Type} [Field K] (sinF : K → K) (pi : K) (n : Nat)
    (u : Int → K) (N : Int) (l2_norm : K) : K :=
  (List.range n).foldl (fun acc (k : Nat) => check_solution_thread sinF pi u N (k : Int) acc)
    l2_norm

/-! ## Error reduction in `main` (lines 165-183) -/

/-- The two error variables of a PE: the host value `*l2_norm` and the device
value `*d_l2_norm`. -/
structure ErrVars (K : Type) where
  l2_norm : K
  d_l2_norm : K

/-- Line 174: `cudaMemcpy(l2_norm, d_l2_norm, ..., cudaMemcpyDeviceToHost)`. -/
def ErrVars.copy_to_host {K : Type} (v : ErrVars K) : ErrVars K :=
  { v with l2_norm := v.d_l2_norm }

/-- Line 177: `*l2_norm = std::sqrt(*l2_norm / NUM_POINTS);`. -/
def ErrVars.normalize {K : Type} [Field K] (sqrtF : K → K) (v : ErrVars K) : ErrVars K :=
  { v with l2_norm := sqrtF (v.l2_norm / ((NUM_POINTS : Int) : K)) }

/-- The values the collective of line 181 combines: its source argument is
`d_l2_norm` on every PE. -/
def reduce_inputs {K : Type} (vs : List (ErrVars K)) : List K :=
  vs.map (fun v => v.d_l2_norm)

/-- Line 181: `nvshmem_float_sum_reduce(NVSHMEM_TEAM_WORLD, d_l2_norm, d_l2_norm, 1)`:
every PE receives the sum of the inputs in its destination `d_l2_norm`. -/
def sum_reduce {K : Type} [Field K] (vs : List (ErrVars K)) : List (ErrVars K) :=
  vs.map (fun v => { v with d_l2_norm := (reduce_inputs vs).sum })

/-- Lines 174-177 on every PE; `S` lists the value of `*d_l2_norm` on each PE
after `check_solution`, `host` the content of the host buffer `l2_norm`. -/
def before_reduce {K : Type} [Field K] (sqrtF : K → K) (host S : List K) : List (ErrVars K) :=
  (List.zipWith (fun h d => (ErrVars.mk h d).copy_to_host.normalize sqrtF) host S)

/-- Lines 174-181 on every PE. -/
def main_error {K : Type} [Field K] (sqrtF : K → K) (host S : List K) : List (ErrVars K) :=
  sum_reduce (before_reduce sqrtF host S)

/-- Line 183: `std::cout << "Error = " << *l2_norm`, the error a PE reports. -/
def ErrVars.reported {K : Type} (v : ErrVars K) : K := v.l2_norm

/-! ## The time loop of `main` (lines 122-163) -/

/-- The host variables `t`, `dt` and `num_steps`. -/
structure TimeVars where
  t : ℚ
  dt : ℚ
  num_steps : Nat
deriving DecidableEq

/-- Line 133: `const float safety_factor = (1.0f - 1.0e-5f);`. -/
def safety_factor : ℚ := 1 - 1 / 100000

/-- Line 137: the loop condition `t < safety_factor * stop_time`. -/
def loop_cond (stop_time : ℚ) (v : TimeVars) : Bool :=
  decide (v.t < safety_factor * stop_time)

/-- Lines 139-141: the value of `dt` after the clamp. -/
def clamp_dt (stop_time : ℚ) (v : TimeVars) : ℚ :=
  if v.t + v.dt ≥ stop_time then stop_time - v.t else v.dt

/-- The effect of one loop iteration on `t`, `dt` and `num_steps`
(lines 139-141 and 161-162). -/
def time_step (stop_time : ℚ) (v : TimeVars) : TimeVars :=
  let dt := clamp_dt stop_time v
  { t := v.t + dt, dt := dt, num_steps := v.num_steps + 1 }

/-- The variables of `main` during the time loop. -/
structure MainState (β : Type) where
  job : Job β ℚ
  time : TimeVars

/-- Lines 138-162: the body of the time loop. -/
def loop_body {β : Type} [DecidableEq β] (stop_time dx : ℚ) (N n_pes : Int)
    (s : MainState β) : MainState β :=
  let dt := clamp_dt stop_time s.time
  let dtdxsq := (dt / dx) * (dt / dx)
  { job := s.job.grid_step N n_pes dtdxsq
    time := time_step stop_time s.time }

/-- Lines 137-163: the `while` loop, run for at most `fuel` evaluations of its
condition; `none` when the fuel runs out before the condition is false. -/
def run_loop {β : Type} [DecidableEq β] (stop_time dx : ℚ) (N n_pes : Int) :
    Nat → MainState β → Option (MainState β)
  | 0, _ => none
  | fuel + 1, s =>
    if loop_cond stop_time s.time then
      run_loop stop_time dx N n_pes fuel (loop_body stop_time dx N n_pes s)
    else some s

/-- Lines 129-130: `dx = 1.0f / (NUM_POINTS - 1)`. -/
def config_dx : ℚ := 1 / ((NUM_POINTS - 1 : Int) : ℚ)

/-- Lines 128-135: the time variables on entry to the loop, with
`stability_factor = 0.5`, `start_time = 0`. -/
def config_start : TimeVars :=
  { t := 0, dt := (1 / 2) * config_dx, num_steps := 0 }

/-- Line 125: `stop_time = period = 1.0f`. -/
def config_stop_time : ℚ := 1

/-! ## Sample inputs -/

/-- A heap on which element `i` of every allocation of PE `pe` holds
`10 * pe + i`, with the three pointers on three distinct allocations. -/
def sample_job : Job (Fin 3) ℚ :=
  { mem := fun pe b i => if b = 1 then ((10 * pe + i : Int) : ℚ) else 0
    u := 0
    u_old := 1
    u_older := 2 }

/-- A heap whose three allocations are initialised identically, element `i` of
PE `pe` holding `10 * pe + i`. -/
def uniform_job : Job (Fin 3) ℚ :=
  { mem := fun pe _ i => ((10 * pe + i : Int) : ℚ)
    u := 0
    u_old := 1
    u_older := 2 }

/-! # Theorems -/

/-! ## Auxiliary facts about launches and threads -/

lemma on_boundary_eq_false_iff (N my_pe n_pes idx : Int) :
    on_boundary N my_pe n_pes idx = false ↔
      ¬ (my_pe = 0 ∧ idx = 0) ∧ ¬ (my_pe = n_pes - 1 ∧ idx = N - 1) := by
  unfold on_boundary
  split_ifs with h1 h2 <;> simp_all

/-- A thread of `wave_update` stores, if at all, to the element of its own index. -/
lemma wave_update_thread_store_index {K : Type} [Field K] (u_old : Int → Int → K)
    (u_older : Int → K) (dtdxsq : K) (N my_pe n_pes idx j : Int) (v : K)
    (h : (wave_update_thread u_old u_older dtdxsq N my_pe n_pes idx).store = some (j, v)) :
    j = idx := by
  unfold wave_update_thread at h
  split_ifs at h with hg
  · simp only [Option.some.injEq, Prod.mk.injEq] at h
    exact h.1.symm

/-- A thread of `wave_update` on a fixed global edge, or beyond the slice,
stores nothing. -/
lemma wave_update_thread_store_none {K : Type} [Field K] (u_old : Int → Int → K)
    (u_older : Int → K) (dtdxsq : K) (N my_pe n_pes idx : Int)
    (h : N ≤ idx ∨ (my_pe = 0 ∧ idx = 0) ∨ (my_pe = n_pes - 1 ∧ idx = N - 1)) :
    (wave_update_thread u_old u_older dtdxsq N my_pe n_pes idx).store = none := by
  unfold wave_update_thread
  rw [if_neg]
  rintro ⟨h1, h2⟩
  rw [on_boundary_eq_false_iff] at h2
  rcases h with h | h | h
  · omega
  · exact h2.1 h
  · exact h2.2 h

/-- One more thread in a launch. -/
lemma launch_succ {K : Type} (n : Nat) (thread : Int → Option (Int × K)) (a : Int → K) :
    launch (n + 1) thread a =
      match thread (n : Int) with
      | some (j, v) => Function.update (launch n thread a) j v
      | none => launch n thread a := by
  unfold launch
  rw [List.range_succ, List.foldl_append]
  rfl

/-- When every thread stores to the element of its own index, a launch leaves
in element `i` the value stored by thread `i`, and the former value where no
thread of index `i` exists or thread `i` stores nothing. -/
lemma launch_apply {K : Type} (n : Nat) (thread : Int → Option (Int × K)) (a : Int → K)
    (hown : ∀ k j v, thread k = some (j, v) → j = k) (i : Int) :
    launch n thread a i =
      if 0 ≤ i ∧ i < (n : Int) then
        match thread i with
        | some (_, v) => v
        | none => a i
      else a i := by
  induction n with
  | zero =>
    have : ¬ (0 ≤ i ∧ i < ((0 : Nat) : Int)) := by
      simp only [Nat.cast_zero]; omega
    rw [if_neg this]
    rfl
  | succ n ih =>
    rw [launch_succ]
    rcases hth : thread (n : Int) with _ | ⟨j, v⟩
    · simp only
      rw [ih]
      by_cases hi : i = (n : Int)
      · subst hi
        have h1 : ¬ (0 ≤ (n : Int) ∧ (n : Int) < (n : Int)) := by omega
        have h2 : 0 ≤ (n : Int) ∧ (n : Int) < ((n + 1 : Nat) : Int) := by
          push_cast; omega
        rw [if_neg h1, if_pos h2, hth]
      · by_cases hlt : 0 ≤ i ∧ i < (n : Int)
        · have h2 : 0 ≤ i ∧ i < ((n + 1 : Nat) : Int) := by
            push_cast; omega
          rw [if_pos hlt, if_pos h2]
        · have h2 : ¬ (0 ≤ i ∧ i < ((n + 1 : Nat) : Int)) := by
            push_cast; omega
          rw [if_neg hlt, if_neg h2]
    · simp only
      have hj : j = (n : Int) := hown _ _ _ hth
      subst hj
      by_cases hi : i = (n : Int)
      · subst hi
        have h2 : 0 ≤ (n : Int) ∧ (n : Int) < ((n + 1 : Nat) : Int) := by
          push_cast; omega
        rw [Function.update_same, if_pos h2, hth]
      · rw [Function.update_noteq hi, ih]
        by_cases hlt : 0 ≤ i ∧ i < (n : Int)
        · have h2 : 0 ≤ i ∧ i < ((n + 1 : Nat) : Int) := by
            push_cast; omega
          rw [if_pos hlt, if_pos h2]
        · have h2 : ¬ (0 ≤ i ∧ i < ((n + 1 : Nat) : Int)) := by
            push_cast; omega
          rw [if_neg hlt, if_neg h2]

/-- The launch configuration of lines 114-115 covers the slice: every index of
`[0, N)` is the index of a thread. -/
lemma lt_num_threads (N i : Int) (h0 : 0 ≤ i) (hN : i < N) : i < (num_threads N : Int) := by
  unfold num_threads blocks threads_per_block
  have hnn : (0 : Int) ≤ N + 256 - 1 := by omega
  have hdiv : Int.tdiv (N + 256 - 1) 256 = (N + 256 - 1) / 256 :=
    Int.tdiv_eq_ediv hnn (by norm_num)
  rw [hdiv]
  have h1 : (0 : Int) ≤ (N + 256 - 1) / 256 * 256 := by
    have : (0 : Int) ≤ (N + 256 - 1) / 256 := Int.ediv_nonneg hnn (by norm_num)
    omega
  rw [Int.toNat_of_nonneg h1]
  omega

/-- The heap after a launch of `wave_update`, at an element of the allocation
`u` of an existing PE: the value stored by the thread of that index, if it
stores, and the former value otherwise. -/
lemma wave_update_mem_u {β K : Type} [DecidableEq β] [Field K] (s : Job β K) (dtdxsq : K)
    (N n_pes pe i : Int) (hpe : 0 ≤ pe ∧ pe < n_pes) :
    (s.wave_update dtdxsq N n_pes).mem pe s.u i =
      if 0 ≤ i ∧ i < (num_threads N : Int) then
        match (wave_update_thread (fun q k => s.mem q s.u_old k) (s.mem pe s.u_older)
            dtdxsq N pe n_pes i).store with
        | some (_, v) => v
        | none => s.mem pe s.u i
      else s.mem pe s.u i := by
  unfold Job.wave_update Job.launch_on
  simp only
  rw [if_pos ⟨hpe.1, hpe.2, trivial⟩]
  exact launch_apply _ _ _
    (fun k j v h => wave_update_thread_store_index _ _ _ _ _ _ _ _ _ h) i

/-- A launch of `wave_update` changes no element of an allocation other than `u`. -/
lemma wave_update_mem_other {β K : Type} [DecidableEq β] [Field K] (s : Job β K) (dtdxsq : K)
    (N n_pes pe i : Int) (b : β) (hb : b ≠ s.u) :
    (s.wave_update dtdxsq N n_pes).mem pe b i = s.mem pe b i := by
  unfold Job.wave_update Job.launch_on
  simp only
  rw [if_neg]
  rintro ⟨_, _, h⟩
  exact hb h

/-- A launch of `wave_update` changes no element at which the thread of that
index stores nothing, in whichever allocation. -/
lemma wave_update_mem_fixed {β K : Type} [DecidableEq β] [Field K] (s : Job β K) (dtdxsq : K)
    (N n_pes pe i : Int) (b : β)
    (h : (wave_update_thread (fun q k => s.mem q s.u_old k) (s.mem pe s.u_older)
            dtdxsq N pe n_pes i).store = none) :
    (s.wave_update dtdxsq N n_pes).mem pe b i = s.mem pe b i := by
  by_cases hb : b = s.u
  · subst hb
    by_cases hpe : 0 ≤ pe ∧ pe < n_pes
    · rw [wave_update_mem_u s dtdxsq N n_pes pe i hpe, h]
      split_ifs <;> rfl
    · unfold Job.wave_update Job.launch_on
      simp only
      rw [if_neg]
      rintro ⟨h1, h2, _⟩
      exact hpe ⟨h1, h2⟩
  · exact wave_update_mem_other s dtdxsq N n_pes pe i b hb

/-! ## C1: the stencil update -/

/-- C1: for `n_pes ≥ 1`, a rank `r` in `[0, n_pes)`, `N ≥ 1` and a local index
`idx` in `[0, N)` that is not a fixed global edge, the launch of `wave_update`
leaves in `current[idx]` (allocation `u` of PE `r`) the value
`2*previous[idx] - older[idx] + dtdxsq*(right - 2*previous[idx] + left)`, where
`left` is this PE's `previous[idx-1]` when `idx > 0` and PE `r-1`'s
`previous[N-1]` otherwise, and `right` is this PE's `previous[idx+1]` when
`idx < N-1` and PE `r+1`'s `previous[0]` otherwise. -/
theorem wave_update_stencil {β K : Type} [DecidableEq β] [Field K] (s : Job β K) (dtdxsq : K)
    (N n_pes r idx : Int) (_hn : 1 ≤ n_pes) (hr : 0 ≤ r ∧ r < n_pes) (_hN : 1 ≤ N)
    (hidx : 0 ≤ idx ∧ idx < N) (hleft : ¬ (r = 0 ∧ idx = 0))
    (hright : ¬ (r = n_pes - 1 ∧ idx = N - 1)) :
    (s.wave_update dtdxsq N n_pes).mem r s.u idx =
      2 * s.mem r s.u_old idx - s.mem r s.u_older idx
        + dtdxsq *
          ((if idx < N - 1 then s.mem r s.u_old (idx + 1) else s.mem (r + 1) s.u_old 0)
            - 2 * s.mem r s.u_old idx
            + (if 0 < idx then s.mem r s.u_old (idx - 1) else s.mem (r - 1) s.u_old (N - 1))) := by
  rw [wave_update_mem_u s dtdxsq N n_pes r idx hr,
    if_pos ⟨hidx.1, lt_num_threads N idx hidx.1 hidx.2⟩]
  unfold wave_update_thread
  rw [if_pos ⟨hidx.2, (on_boundary_eq_false_iff _ _ _ _).2 ⟨hleft, hright⟩⟩]
  simp only
  unfold fetch_left fetch_right
  by_cases h0 : idx = 0
  · by_cases h1 : idx = N - 1
    · have e1 : ¬ idx < N - 1 := by omega
      have e2 : ¬ 0 < idx := by omega
      rw [if_pos h0, if_pos h1, if_neg e1, if_neg e2]
    · have e1 : idx < N - 1 := by omega
      have e2 : ¬ 0 < idx := by omega
      rw [if_pos h0, if_neg h1, if_pos e1, if_neg e2]
  · by_cases h1 : idx = N - 1
    · have e1 : ¬ idx < N - 1 := by omega
      have e2 : 0 < idx := by omega
      rw [if_neg h0, if_pos h1, if_neg e1, if_pos e2]
    · have e1 : idx < N - 1 := by omega
      have e2 : 0 < idx := by omega
      rw [if_neg h0, if_neg h1, if_pos e1, if_pos e2]

/-- Witness of C1: two PEs with two elements each; index 0 of PE 1 takes its
left neighbour from element 1 of PE 0. -/
theorem wave_update_stencil_witness :
    (sample_job.wave_update 1 2 2).mem 1 sample_job.u 0 =
      2 * sample_job.mem 1 sample_job.u_old 0 - sample_job.mem 1 sample_job.u_older 0
        + 1 *
          ((if (0 : Int) < 2 - 1 then sample_job.mem 1 sample_job.u_old (0 + 1)
              else sample_job.mem (1 + 1) sample_job.u_old 0)
            - 2 * sample_job.mem 1 sample_job.u_old 0
            + (if (0 : Int) < 0 then sample_job.mem 1 sample_job.u_old (0 - 1)
                else sample_job.mem (1 - 1) sample_job.u_old (2 - 1))) :=
  wave_update_stencil sample_job 1 2 2 1 0 (by decide) (by decide) (by decide) (by decide)
    (by decide) (by decide)

/-! ## C3: the left neighbour of local index 0 -/

/-- C3, as stated, fails: with `n_pes = NUM_POINTS = 1048576` PEs every slice
has `N = NUM_POINTS / n_pes = 1` element, and local index 0 of the last PE
(rank 1048575) is the fixed right edge of the domain (`idx = N - 1` on PE
`n_pes - 1`); its thread is skipped by the guard of line 37 and makes no
access at all, so it does not read its left neighbour from PE 1048574. -/
theorem left_neighbour_single_element_counterexample :
    slice_size 1048576 = 1 ∧
    (wave_update_thread (fun _ _ => (0 : ℚ)) (fun _ => 0) 0 (slice_size 1048576)
        1048575 1048576 0).accesses = [] ∧
    (wave_update_thread (fun _ _ => (0 : ℚ)) (fun _ => 0) 0 (slice_size 1048576)
        1048575 1048576 0).accesses.filter (fun a => decide (a.stmt = Stmt.left))
      ≠ [Access.get Stmt.left Arr.u_old (slice_size 1048576 - 1) (1048575 - 1)] := by
  have hN : slice_size 1048576 = 1 := by decide
  have hacc : (wave_update_thread (fun _ _ => (0 : ℚ)) (fun _ => 0) 0 (slice_size 1048576)
      1048575 1048576 0).accesses = [] := by
    rw [hN]
    rfl
  refine ⟨hN, hacc, ?_⟩
  rw [hacc]
  simp

/-- C3, amended: for `n_pes > 1`, a rank `0 < r < n_pes` and `N ≥ 1` such that
local index 0 of PE `r` is not the fixed right edge (not both `r = n_pes - 1`
and `N = 1`), the thread of index 0 on PE `r` makes exactly one access for its
left neighbour, the remote read of element `N - 1` of `u_old` on PE `r - 1`,
and the value it uses as left neighbour is that element. -/
theorem left_neighbour_remote {K : Type} [Field K] (u_old : Int → Int → K) (u_older : Int → K)
    (dtdxsq : K) (N n_pes r : Int) (_hn : 1 < n_pes) (hr : 0 < r ∧ r < n_pes) (hN : 1 ≤ N)
    (hedge : ¬ (r = n_pes - 1 ∧ N = 1)) :
    (wave_update_thread u_old u_older dtdxsq N r n_pes 0).accesses.filter
        (fun a => decide (a.stmt = Stmt.left))
      = [Access.get Stmt.left Arr.u_old (N - 1) (r - 1)] ∧
    fetch_left u_old N r 0 = (u_old (r - 1) (N - 1), Access.get Stmt.left Arr.u_old (N - 1) (r - 1)) := by
  have hb : on_boundary N r n_pes 0 = false := by
    rw [on_boundary_eq_false_iff]
    constructor
    · rintro ⟨h, _⟩; omega
    · rintro ⟨h1, h2⟩; exact hedge ⟨h1, by omega⟩
  have hg : (0 : Int) < N ∧ on_boundary N r n_pes 0 = false := ⟨by omega, hb⟩
  unfold wave_update_thread
  rw [if_pos hg]
  unfold fetch_left fetch_right
  constructor
  · by_cases h1 : (0 : Int) = N - 1
    · simp [h1, Access.stmt]
    · simp [h1, Access.stmt]
  · simp

/-- Witness of C3 (amended): three PEs with one element each, the middle PE. -/
theorem left_neighbour_remote_witness :
    (wave_update_thread (fun _ _ => (0 : ℚ)) (fun _ => 0) 0 1 1 3 0).accesses.filter
        (fun a => decide (a.stmt = Stmt.left))
      = [Access.get Stmt.left Arr.u_old (1 - 1) (1 - 1)] ∧
    fetch_left (fun _ _ => (0 : ℚ)) 1 1 0
      = ((fun _ _ => (0 : ℚ)) (1 - 1) (1 - 1), Access.get Stmt.left Arr.u_old (1 - 1) (1 - 1)) :=
  left_neighbour_remote (fun _ _ => (0 : ℚ)) (fun _ => 0) 0 1 3 1 (by decide) (by decide)
    (by decide) (by decide)

/-! ## C4: a single PE makes no remote read -/

/-- C4: with `n_pes = 1` (hence rank 0), for every slice size `N` and every
thread index `idx`, the thread of `wave_update` makes no remote read; the
threads of index `0` and `N - 1`, the only ones that could reach a remote
read, are fixed global edges and make no access at all, and every other
thread inside the slice reads both neighbours from the local `u_old`. -/
theorem single_pe_no_remote_read {K : Type} [Field K] (u_old : Int → Int → K)
    (u_older : Int → K) (dtdxsq : K) (N idx : Int) :
    (∀ a ∈ (wave_update_thread u_old u_older dtdxsq N 0 1 idx).accesses, a.isRemote = false) ∧
    (idx = 0 ∨ idx = N - 1 →
      (wave_update_thread u_old u_older dtdxsq N 0 1 idx).accesses = []) ∧
    (idx < N ∧ idx ≠ 0 ∧ idx ≠ N - 1 →
      (wave_update_thread u_old u_older dtdxsq N 0 1 idx).accesses =
        [Access.load Stmt.left Arr.u_old (idx - 1), Access.load Stmt.right Arr.u_old (idx + 1),
         Access.load Stmt.stencil Arr.u_old idx, Access.load Stmt.stencil Arr.u_older idx,
         Access.load Stmt.stencil Arr.u_old idx, Access.store Stmt.stencil Arr.u idx]) := by
  have hedge : idx = 0 ∨ idx = N - 1 →
      (wave_update_thread u_old u_older dtdxsq N 0 1 idx).accesses = [] := by
    intro h
    unfold wave_update_thread
    rw [if_neg]
    rintro ⟨_, h2⟩
    rw [on_boundary_eq_false_iff] at h2
    rcases h with h | h
    · exact h2.1 ⟨rfl, h⟩
    · exact h2.2 ⟨by norm_num, h⟩
  have hin : idx < N ∧ idx ≠ 0 ∧ idx ≠ N - 1 →
      (wave_update_thread u_old u_older dtdxsq N 0 1 idx).accesses =
        [Access.load Stmt.left Arr.u_old (idx - 1), Access.load Stmt.right Arr.u_old (idx + 1),
         Access.load Stmt.stencil Arr.u_old idx, Access.load Stmt.stencil Arr.u_older idx,
         Access.load Stmt.stencil Arr.u_old idx, Access.store Stmt.stencil Arr.u idx] := by
    rintro ⟨h1, h2, h3⟩
    have hb : on_boundary N 0 1 idx = false := by
      rw [on_boundary_eq_false_iff]
      exact ⟨fun h => h2 h.2, fun h => h3 h.2⟩
    unfold wave_update_thread
    rw [if_pos ⟨h1, hb⟩]
    unfold fetch_left fetch_right
    simp only [if_neg h2, if_neg h3]
  refine ⟨?_, hedge, hin⟩
  intro a ha
  by_cases hg : idx < N ∧ idx ≠ 0 ∧ idx ≠ N - 1
  · rw [hin hg] at ha
    simp only [List.mem_cons, List.mem_singleton, List.not_mem_nil, or_false] at ha
    rcases ha with h | h | h | h | h | h <;> subst h <;> rfl
  · have hnone : (wave_update_thread u_old u_older dtdxsq N 0 1 idx).accesses = [] := by
      by_cases he : idx = 0 ∨ idx = N - 1
      · exact hedge he
      · unfold wave_update_thread
        rw [if_neg]
        rintro ⟨h1, _⟩
        exact hg ⟨h1, fun h => he (Or.inl h), fun h => he (Or.inr h)⟩
    rw [hnone] at ha
    simp at ha

/-! ## C10: every access is in bounds -/

/-- C10: for `n_pes ≥ 1`, a rank `r` in `[0, n_pes)`, `N ≥ 1` and every thread
index `idx ≥ 0`, every access of the thread of `wave_update` is in bounds
(local loads and the store at an index of `[0, N)`, remote reads at a rank of
`[0, n_pes)` and an index of `[0, N)`), and a thread with `idx ≥ N` makes no
access and stores nothing. -/
theorem wave_update_in_bounds {K : Type} [Field K] (u_old : Int → Int → K)
    (u_older : Int → K) (dtdxsq : K) (N n_pes r idx : Int) (_hn : 1 ≤ n_pes)
    (hr : 0 ≤ r ∧ r < n_pes) (_hN : 1 ≤ N) (hidx : 0 ≤ idx) :
    (∀ a ∈ (wave_update_thread u_old u_older dtdxsq N r n_pes idx).accesses,
        a.inBounds N n_pes) ∧
    (N ≤ idx →
      (wave_update_thread u_old u_older dtdxsq N r n_pes idx).accesses = [] ∧
      (wave_update_thread u_old u_older dtdxsq N r n_pes idx).store = none) := by
  constructor
  · intro a ha
    unfold wave_update_thread at ha
    split_ifs at ha with hg
    · obtain ⟨hlt, hb⟩ := hg
      rw [on_boundary_eq_false_iff] at hb
      obtain ⟨hb1, hb2⟩ := hb
      unfold fetch_left fetch_right at ha
      simp only [List.mem_cons, List.mem_singleton, List.not_mem_nil, or_false] at ha
      rcases ha with h | h | h | h | h | h
      · by_cases h0 : idx = 0
        · rw [if_pos h0] at h
          subst h
          have : r ≠ 0 := fun hr0 => hb1 ⟨hr0, h0⟩
          simp only [Access.inBounds]
          omega
        · rw [if_neg h0] at h
          subst h
          simp only [Access.inBounds]
          omega
      · by_cases h1 : idx = N - 1
        · rw [if_pos h1] at h
          subst h
          have : r ≠ n_pes - 1 := fun hr1 => hb2 ⟨hr1, h1⟩
          simp only [Access.inBounds]
          omega
        · rw [if_neg h1] at h
          subst h
          simp only [Access.inBounds]
          omega
      all_goals
        subst h
        simp only [Access.inBounds]
        omega
    · simp at ha
  · intro hge
    unfold wave_update_thread
    rw [if_neg]
    · exact ⟨rfl, rfl⟩
    · rintro ⟨h, _⟩
      omega

/-- Witness of C10: thread 0 of the second of two PEs, slices of two elements. -/
theorem wave_update_in_bounds_witness :
    (∀ a ∈ (wave_update_thread (fun _ _ => (0 : ℚ)) (fun _ => 0) 0 2 1 2 0).accesses,
        a.inBounds 2 2) ∧
    ((2 : Int) ≤ 0 →
      (wave_update_thread (fun _ _ => (0 : ℚ)) (fun _ => 0) 0 2 1 2 0).accesses = [] ∧
      (wave_update_thread (fun _ _ => (0 : ℚ)) (fun _ => 0) 0 2 1 2 0).store = none) :=
  wave_update_in_bounds (fun _ _ => (0 : ℚ)) (fun _ => 0) 0 2 2 1 0 (by decide) (by decide)
    (by decide) (by decide)

/-! ## C5: the buffer rotation -/

/-- C5: the two swaps at the end of a time step relabel the buffers cyclically
(new `u_older` = old `u_old`, new `u_old` = old `u`, new `u` = old `u_older`),
leave the heap untouched, and three rotations restore every pointer, for every
assignment of the three pointers. -/
theorem advance_cyclic {β K : Type} (s : Job β K) :
    s.advance.u_older = s.u_old ∧ s.advance.u_old = s.u ∧ s.advance.u = s.u_older ∧
    s.advance.mem = s.mem ∧ s.advance.advance.advance = s := by
  refine ⟨rfl, rfl, rfl, rfl, rfl⟩

/-! ## C2: the global edges keep their initial value -/

/-- One time step keeps an element at which the thread of `wave_update` never
stores equal to `v` in all three buffers. -/
lemma grid_step_edge {β K : Type} [DecidableEq β] [Field K] (N n_pes pe i : Int)
    (hedge : (pe = 0 ∧ i = 0) ∨ (pe = n_pes - 1 ∧ i = N - 1)) (v : K) (s : Job β K) (d : K)
    (h : s.mem pe s.u i = v ∧ s.mem pe s.u_old i = v ∧ s.mem pe s.u_older i = v) :
    (s.grid_step N n_pes d).mem pe (s.grid_step N n_pes d).u i = v ∧
    (s.grid_step N n_pes d).mem pe (s.grid_step N n_pes d).u_old i = v ∧
    (s.grid_step N n_pes d).mem pe (s.grid_step N n_pes d).u_older i = v := by
  have hfix : ∀ b, (s.wave_update d N n_pes).mem pe b i = s.mem pe b i := fun b =>
    wave_update_mem_fixed s d N n_pes pe i b
      (wave_update_thread_store_none _ _ _ _ _ _ _ (Or.inr hedge))
  have hu : (s.grid_step N n_pes d).u = s.u_older := rfl
  have ho : (s.grid_step N n_pes d).u_old = s.u := rfl
  have hoo : (s.grid_step N n_pes d).u_older = s.u_old := rfl
  have hm : (s.grid_step N n_pes d).mem = (s.wave_update d N n_pes).mem := rfl
  rw [hu, ho, hoo, hm, hfix, hfix, hfix]
  exact ⟨h.2.2, h.1, h.2.1⟩

/-- Any number of time steps keeps such an element equal to `v` in all three
buffers. -/
lemma grid_steps_edge {β K : Type} [DecidableEq β] [Field K] (N n_pes pe i : Int)
    (hedge : (pe = 0 ∧ i = 0) ∨ (pe = n_pes - 1 ∧ i = N - 1)) (v : K) (ds : List K) :
    ∀ s : Job β K,
      (s.mem pe s.u i = v ∧ s.mem pe s.u_old i = v ∧ s.mem pe s.u_older i = v) →
      (s.grid_steps N n_pes ds).mem pe (s.grid_steps N n_pes ds).u i = v ∧
      (s.grid_steps N n_pes ds).mem pe (s.grid_steps N n_pes ds).u_old i = v ∧
      (s.grid_steps N n_pes ds).mem pe (s.grid_steps N n_pes ds).u_older i = v := by
  induction ds with
  | nil => intro s h; exact h
  | cons d ds ih =>
    intro s h
    exact ih (s.grid_step N n_pes d) (grid_step_edge N n_pes pe i hedge v s d h)

/-- C2: for `n_pes ≥ 1`, `N ≥ 1` and any number of time steps (one entry of
`ds` per step, each `wave_update` followed by the two pointer swaps), starting
from three identically initialised buffers, element 0 of rank 0 and element
`N - 1` of rank `n_pes - 1` still hold their initial value in the buffers
playing the roles `current`, `previous` and `older`. -/
theorem boundary_points_fixed {β K : Type} [DecidableEq β] [Field K] (N n_pes : Int)
    (_hn : 1 ≤ n_pes) (_hN : 1 ≤ N) (ds : List K) (s : Job β K) (init : Int → Int → K)
    (hinit : ∀ pe i, s.mem pe s.u i = init pe i ∧ s.mem pe s.u_old i = init pe i ∧
      s.mem pe s.u_older i = init pe i) :
    ((s.grid_steps N n_pes ds).mem 0 (s.grid_steps N n_pes ds).u 0 = init 0 0 ∧
     (s.grid_steps N n_pes ds).mem 0 (s.grid_steps N n_pes ds).u_old 0 = init 0 0 ∧
     (s.grid_steps N n_pes ds).mem 0 (s.grid_steps N n_pes ds).u_older 0 = init 0 0) ∧
    ((s.grid_steps N n_pes ds).mem (n_pes - 1) (s.grid_steps N n_pes ds).u (N - 1)
        = init (n_pes - 1) (N - 1) ∧
     (s.grid_steps N n_pes ds).mem (n_pes - 1) (s.grid_steps N n_pes ds).u_old (N - 1)
        = init (n_pes - 1) (N - 1) ∧
     (s.grid_steps N n_pes ds).mem (n_pes - 1) (s.grid_steps N n_pes ds).u_older (N - 1)
        = init (n_pes - 1) (N - 1)) :=
  ⟨grid_steps_edge N n_pes 0 0 (Or.inl ⟨rfl, rfl⟩) (init 0 0) ds s (hinit 0 0),
   grid_steps_edge N n_pes (n_pes - 1) (N - 1) (Or.inr ⟨rfl, rfl⟩) (init (n_pes - 1) (N - 1))
     ds s (hinit (n_pes - 1) (N - 1))⟩

/-- Witness of C2: two PEs with two elements each, two time steps. -/
theorem boundary_points_fixed_witness :
    ((uniform_job.grid_steps 2 2 [1, 1]).mem 0 (uniform_job.grid_steps 2 2 [1, 1]).u 0
        = (fun pe i => ((10 * pe + i : Int) : ℚ)) 0 0 ∧
     (uniform_job.grid_steps 2 2 [1, 1]).mem 0 (uniform_job.grid_steps 2 2 [1, 1]).u_old 0
        = (fun pe i => ((10 * pe + i : Int) : ℚ)) 0 0 ∧
     (uniform_job.grid_steps 2 2 [1, 1]).mem 0 (uniform_job.grid_steps 2 2 [1, 1]).u_older 0
        = (fun pe i => ((10 * pe + i : Int) : ℚ)) 0 0) ∧
    ((uniform_job.grid_steps 2 2 [1, 1]).mem (2 - 1) (uniform_job.grid_steps 2 2 [1, 1]).u (2 - 1)
        = (fun pe i => ((10 * pe + i : Int) : ℚ)) (2 - 1) (2 - 1) ∧
     (uniform_job.grid_steps 2 2 [1, 1]).mem (2 - 1) (uniform_job.grid_steps 2 2 [1, 1]).u_old
        (2 - 1) = (fun pe i => ((10 * pe + i : Int) : ℚ)) (2 - 1) (2 - 1) ∧
     (uniform_job.grid_steps 2 2 [1, 1]).mem (2 - 1) (uniform_job.grid_steps 2 2 [1, 1]).u_older
        (2 - 1) = (fun pe i => ((10 * pe + i : Int) : ℚ)) (2 - 1) (2 - 1)) :=
  boundary_points_fixed 2 2 (by decide) (by decide) [1, 1] uniform_job
    (fun pe i => ((10 * pe + i : Int) : ℚ)) (fun _ _ => ⟨rfl, rfl, rfl⟩)

/-! ## C6: `initialize` -/

/-- A launch of `initialize` leaves the sample of the thread index in every
element of `[0, N)`. -/
lemma initialize_launch_apply {K : Type} [Field K] (sinF : K → K) (pi : K) (N i : Int)
    (hi : 0 ≤ i ∧ i < N) (a : Int → K) :
    launch (num_threads N) (initialize_thread sinF pi N) a i = sine_sample sinF pi i := by
  rw [launch_apply]
  · rw [if_pos ⟨hi.1, lt_num_threads N i hi.1 hi.2⟩]
    unfold initialize_thread
    rw [if_pos hi.2]
  · intro k j v h
    unfold initialize_thread at h
    split_ifs at h
    simp only [Option.some.injEq, Prod.mk.injEq] at h
    exact h.1.symm

/-- What lines 117-119 do: on every PE of `[0, n_pes)` each of the three
buffers holds, at every local index `i` of the slice, the sample at the local
index `i`, whatever the rank. -/
lemma initialize_all_mem {β K : Type} [DecidableEq β] [Field K] (sinF : K → K) (pi : K)
    (n_pes : Int) (s : Job β K) (pe i : Int) (hpe : 0 ≤ pe ∧ pe < n_pes)
    (hi : 0 ≤ i ∧ i < slice_size n_pes) :
    (s.initialize_all sinF pi n_pes).mem pe s.u i = sine_sample sinF pi i ∧
    (s.initialize_all sinF pi n_pes).mem pe s.u_old i = sine_sample sinF pi i ∧
    (s.initialize_all sinF pi n_pes).mem pe s.u_older i = sine_sample sinF pi i := by
  have hl := initialize_launch_apply sinF pi (slice_size n_pes) i hi
  unfold Job.initialize_all Job.launch_on
  simp only
  refine ⟨?_, ?_, ?_⟩
  · rw [if_pos ⟨hpe.1, hpe.2, trivial⟩]
    exact hl _
  · by_cases h1 : s.u_old = s.u
    · rw [if_pos ⟨hpe.1, hpe.2, h1⟩]
      exact hl _
    · rw [if_neg (fun h => h1 h.2.2), if_pos ⟨hpe.1, hpe.2, trivial⟩]
      exact hl _
  · by_cases h1 : s.u_older = s.u
    · rw [if_pos ⟨hpe.1, hpe.2, h1⟩]
      exact hl _
    · rw [if_neg (fun h => h1 h.2.2)]
      by_cases h2 : s.u_older = s.u_old
      · rw [if_pos ⟨hpe.1, hpe.2, h2⟩]
        exact hl _
      · rw [if_neg (fun h => h2 h.2.2), if_pos ⟨hpe.1, hpe.2, trivial⟩]
        exact hl _

/-- With two PEs a slice has 524288 elements. -/
lemma slice_size_two : slice_size 2 = 524288 := by decide

/-- The sample at index 0 is `sin 0 = 0`. -/
lemma sine_sample_zero : sine_sample Real.sin Real.pi 0 = 0 := by
  unfold sine_sample
  simp

/-- The sample at index 524288, the global index of the first point of PE 1
when there are two PEs, is negative: the argument of the sine is just past `π`. -/
lemma sine_sample_half_neg : sine_sample Real.sin Real.pi 524288 < 0 := by
  unfold sine_sample NUM_POINTS
  have harg : 2 * Real.pi * ((524288 : Int) : ℝ) / (((1048576 : Int) - 1 : Int) : ℝ)
      = Real.pi / 1048575 + Real.pi := by
    push_cast
    ring
  rw [harg, Real.sin_add_pi]
  have hpos : 0 < Real.sin (Real.pi / 1048575) := by
    apply Real.sin_pos_of_pos_of_lt_pi
    · positivity
    · have := Real.pi_pos
      rw [div_lt_iff₀ (by norm_num)]
      linarith
  linarith

/-- C6 fails on the code for a rank other than 0: with two PEs, `initialize`
leaves in element 0 of PE 1 the sample at the local index 0, `sin 0`, and not
the sample at the global index `1 * N + 0` the claim states; the kernel never
reads the rank. -/
theorem initialize_uses_local_index {β : Type} [DecidableEq β] (s : Job β ℝ) :
    (s.initialize_all Real.sin Real.pi 2).mem 1 s.u 0 = sine_sample Real.sin Real.pi 0 ∧
    (s.initialize_all Real.sin Real.pi 2).mem 1 s.u 0
      ≠ sine_sample Real.sin Real.pi (1 * slice_size 2 + 0) := by
  have h := (initialize_all_mem Real.sin Real.pi 2 s 1 0 (by decide)
    (by rw [slice_size_two]; decide)).1
  refine ⟨h, ?_⟩
  rw [h, slice_size_two, sine_sample_zero]
  have := sine_sample_half_neg
  norm_num
  linarith

/-! ## C7: `check_solution` -/

/-- What line 171 does: a launch of `n` threads adds to the accumulator, for
every thread index `k < N`, the squared difference between `u[k]` and the
sample at the local index `k`. -/
lemma check_solution_launch_eq {K : Type} [Field K] (sinF : K → K) (pi : K) (n : Nat)
    (u : Int → K) (N : Int) (l2_norm : K) :
    check_solution_launch sinF pi n u N l2_norm =
      l2_norm + ∑ k in Finset.range n,
        if (k : Int) < N then
          (u k - sine_sample sinF pi k) * (u k - sine_sample sinF pi k)
        else 0 := by
  induction n with
  | zero => simp [check_solution_launch]
  | succ n ih =>
    unfold check_solution_launch at ih ⊢
    rw [List.range_succ, List.foldl_append, ih, Finset.sum_range_succ]
    simp only [List.foldl_cons, List.foldl_nil, check_solution_thread]
    split_ifs <;> ring

/-- The order in which the atomic additions of line 79 take effect does not
change the accumulated value. -/
lemma check_solution_order {K : Type} [Field K] (sinF : K → K) (pi : K) (u : Int → K)
    (N : Int) (l₁ l₂ : List Nat) (h : l₁.Perm l₂) (l2_norm : K) :
    l₁.foldl (fun acc (k : Nat) => check_solution_thread sinF pi u N (k : Int) acc) l2_norm =
    l₂.foldl (fun acc (k : Nat) => check_solution_thread sinF pi u N (k : Int) acc) l2_norm := by
  induction h generalizing l2_norm with
  | nil => rfl
  | cons x _ ih => exact ih _
  | swap x y l =>
    simp only [List.foldl_cons]
    congr 1
    unfold check_solution_thread
    split_ifs <;> ring
  | trans _ _ ih1 ih2 => exact (ih1 _).trans (ih2 _)

/-- C7 fails on the code for a rank other than 0: with two PEs, take on PE 1 a
grid that holds exactly the reference at the global index, `u[idx] =
ref(1 * N + idx)`.  The sum of the claim, with the reference at the global
index, is then 0, while `check_solution`, started from a zeroed accumulator,
leaves a positive value: it compares with the reference at the local index. -/
theorem check_solution_uses_local_index :
    (∑ k in Finset.range (slice_size 2).toNat,
        ((fun idx : Int => sine_sample Real.sin Real.pi (1 * slice_size 2 + idx)) (k : Int)
          - sine_sample Real.sin Real.pi (1 * slice_size 2 + (k : Int))) ^ 2) = 0 ∧
    0 < check_solution_launch Real.sin Real.pi (num_threads (slice_size 2))
          (fun idx : Int => sine_sample Real.sin Real.pi (1 * slice_size 2 + idx))
          (slice_size 2) 0 := by
  constructor
  · apply Finset.sum_eq_zero
    intro k _
    simp
  · rw [check_solution_launch_eq, zero_add]
    apply Finset.sum_pos'
    · intro k _
      split_ifs
      · exact mul_self_nonneg _
      · exact le_refl _
    · refine ⟨0, ?_, ?_⟩
      · rw [Finset.mem_range, slice_size_two]
        decide
      · have hlt : ((0 : Nat) : Int) < slice_size 2 := by rw [slice_size_two]; decide
        rw [if_pos hlt]
        apply mul_self_pos.2
        have h1 : sine_sample Real.sin Real.pi (1 * slice_size 2 + ((0 : Nat) : Int)) < 0 := by
          rw [slice_size_two]
          exact sine_sample_half_neg
        have h2 : sine_sample Real.sin Real.pi ((0 : Nat) : Int) = 0 := sine_sample_zero
        rw [h2]
        linarith

/-! ## C8: the error reduction -/

/-- What lines 174-177 leave on every PE: the host value is the normalised,
rooted local sum, the device value is still the raw sum of squares. -/
lemma before_reduce_eq {K : Type} [Field K] (sqrtF : K → K) (host S : List K) :
    before_reduce sqrtF host S =
      List.zipWith (fun _ d => ErrVars.mk (sqrtF (d / ((NUM_POINTS : Int) : K))) d) host S := by
  rfl

/-- C8 fails on the code: with two PEs whose sums of squares are `NUM_POINTS`
and `4 * NUM_POINTS`, the local errors are 1 and 2.  The collective of line 181
is applied to `d_l2_norm`, which still holds the raw sums (its inputs are
`NUM_POINTS` and `4 * NUM_POINTS`, not 1 and 2), and line 183 prints the host
value, so PE 0 reports 1 and PE 1 reports 2: neither reports the sum 3 of the
local errors, and the two reports differ. -/
theorem reported_error_is_local :
    reduce_inputs (before_reduce Real.sqrt [0, 0] [1048576, 4 * 1048576])
      = [1048576, 4 * 1048576] ∧
    (main_error Real.sqrt [0, 0] [1048576, 4 * 1048576]).map ErrVars.reported = [1, 2] ∧
    Real.sqrt (1048576 / ((NUM_POINTS : Int) : ℝ))
      + Real.sqrt (4 * 1048576 / ((NUM_POINTS : Int) : ℝ)) = 3 := by
  have h1 : Real.sqrt (1048576 / ((NUM_POINTS : Int) : ℝ)) = 1 := by
    unfold NUM_POINTS
    rw [show (1048576 : ℝ) / ((1048576 : Int) : ℝ) = 1 by push_cast; norm_num]
    exact Real.sqrt_one
  have h2 : Real.sqrt (4 * 1048576 / ((NUM_POINTS : Int) : ℝ)) = 2 := by
    unfold NUM_POINTS
    rw [show (4 : ℝ) * 1048576 / ((1048576 : Int) : ℝ) = 2 ^ 2 by push_cast; norm_num]
    exact Real.sqrt_sq (by norm_num)
  refine ⟨rfl, ?_, ?_⟩
  · simp only [main_error, sum_reduce, before_reduce, ErrVars.copy_to_host, ErrVars.normalize,
      ErrVars.reported, List.zipWith, List.map, h1, h2]
  · rw [h1, h2]
    norm_num

/-! ## C9: the time loop -/

lemma safety_factor_val : safety_factor = 99999 / 100000 := by
  unfold safety_factor
  norm_num

/-- The loop stops as soon as its condition is false. -/
lemma run_loop_exit {β : Type} [DecidableEq β] (stop_time dx : ℚ) (N n_pes : Int) (fuel : Nat)
    (s : MainState β) (h : ¬ s.time.t < safety_factor * stop_time) :
    run_loop stop_time dx N n_pes (fuel + 1) s = some s := by
  unfold run_loop loop_cond
  simp [h]

/-- The loop runs its body while its condition is true. -/
lemma run_loop_continue {β : Type} [DecidableEq β] (stop_time dx : ℚ) (N n_pes : Int)
    (fuel : Nat) (s : MainState β) (h : s.time.t < safety_factor * stop_time) :
    run_loop stop_time dx N n_pes (fuel + 1) s =
      run_loop stop_time dx N n_pes fuel (loop_body stop_time dx N n_pes s) := by
  conv_lhs => unfold run_loop
  unfold loop_cond
  simp [h]

/-- The time variables after one iteration that clamps `dt`. -/
lemma loop_body_time_clamped {β : Type} [DecidableEq β] (stop_time dx : ℚ) (N n_pes : Int)
    (s : MainState β) (h : stop_time ≤ s.time.t + s.time.dt) :
    (loop_body stop_time dx N n_pes s).time =
      { t := stop_time, dt := stop_time - s.time.t, num_steps := s.time.num_steps + 1 } := by
  unfold loop_body time_step clamp_dt
  simp only [ge_iff_le, if_pos h]
  congr 1
  ring

/-- More fuel does not change the result of the loop. -/
lemma run_loop_succ {β : Type} [DecidableEq β] (stop_time dx : ℚ) (N n_pes : Int) :
    ∀ (fuel : Nat) (s r : MainState β),
      run_loop stop_time dx N n_pes fuel s = some r →
      run_loop stop_time dx N n_pes (fuel + 1) s = some r := by
  intro fuel
  induction fuel with
  | zero =>
    intro s r h
    simp [run_loop] at h
  | succ fuel ih =>
    intro s r h
    by_cases hc : s.time.t < safety_factor * stop_time
    · rw [run_loop_continue stop_time dx N n_pes fuel s hc] at h
      rw [run_loop_continue stop_time dx N n_pes (fuel + 1) s hc]
      exact ih _ _ h
    · rw [run_loop_exit stop_time dx N n_pes fuel s hc] at h
      rw [run_loop_exit stop_time dx N n_pes (fuel + 1) s hc]
      exact h

/-- Once the loop has exited within some fuel, it exits in the same state
within any larger fuel. -/
lemma run_loop_mono {β : Type} [DecidableEq β] (stop_time dx : ℚ) (N n_pes : Int)
    (fuel : Nat) (s r : MainState β) (h : run_loop stop_time dx N n_pes fuel s = some r) :
    ∀ fuel2 : Nat, fuel ≤ fuel2 → run_loop stop_time dx N n_pes fuel2 s = some r := by
  intro fuel2 hle
  induction fuel2 with
  | zero =>
    have : fuel = 0 := by omega
    rw [← this]
    exact h
  | succ n ih =>
    by_cases hn : fuel = n + 1
    · rw [← hn]
      exact h
    · exact run_loop_succ stop_time dx N n_pes n s r (ih (by omega))

/-- The grid on exit from the loop is the grid on entry after some number of
time steps, each a launch of `wave_update` followed by the two swaps. -/
lemma run_loop_job {β : Type} [DecidableEq β] (stop_time dx : ℚ) (N n_pes : Int) :
    ∀ (fuel : Nat) (s r : MainState β),
      run_loop stop_time dx N n_pes fuel s = some r →
      ∃ ds : List ℚ, r.job = s.job.grid_steps N n_pes ds := by
  intro fuel
  induction fuel with
  | zero =>
    intro s r h
    simp [run_loop] at h
  | succ fuel ih =>
    intro s r h
    by_cases hc : s.time.t < safety_factor * stop_time
    · rw [run_loop_continue stop_time dx N n_pes fuel s hc] at h
      obtain ⟨ds, hds⟩ := ih _ _ h
      exact ⟨_ :: ds, hds⟩
    · rw [run_loop_exit stop_time dx N n_pes fuel s hc] at h
      simp only [Option.some.injEq] at h
      exact ⟨[], by rw [← h]; rfl⟩

/-- Termination and exit bounds from any state reached without a clamp: if
`t = k * dt` with `k` steps done, the loop exits after finitely many
iterations with `safety_factor * stop_time ≤ t ≤ stop_time`, and either the
last step was clamped and `t = stop_time`, or no step was clamped and
`t = num_steps * dt`. -/
lemma run_loop_terminates_from {β : Type} [DecidableEq β] (stop_time dx dt0 : ℚ)
    (N n_pes : Int) (hstop : 0 < stop_time) :
    ∀ (m : Nat) (job : Job β ℚ) (k : Nat),
      (k : ℚ) * dt0 ≤ stop_time → stop_time - (k : ℚ) * dt0 ≤ (m : ℚ) * dt0 →
      ∃ fuel s, run_loop stop_time dx N n_pes fuel
            { job := job, time := { t := (k : ℚ) * dt0, dt := dt0, num_steps := k } } = some s ∧
        safety_factor * stop_time ≤ s.time.t ∧ s.time.t ≤ stop_time ∧
        (s.time.t = stop_time ∨ s.time.t = (s.time.num_steps : ℚ) * dt0) := by
  have hsf : safety_factor * stop_time < stop_time := by
    rw [safety_factor_val]
    linarith
  intro m
  induction m with
  | zero =>
    intro job k hk hm
    have ht : (k : ℚ) * dt0 = stop_time := by
      simp only [Nat.cast_zero, zero_mul] at hm
      linarith
    refine ⟨1, _, run_loop_exit stop_time dx N n_pes 0 _ ?_, ?_, ?_, Or.inl ht⟩
    · simp only [ht]; exact not_lt.2 hsf.le
    · simp only [ht]; exact hsf.le
    · simp only [ht]; exact le_refl _
  | succ m ih =>
    intro job k hk hm
    by_cases hc : (k : ℚ) * dt0 < safety_factor * stop_time
    · by_cases hcl : stop_time ≤ (k : ℚ) * dt0 + dt0
      · have hbt := loop_body_time_clamped stop_time dx N n_pes
          ({ job := job, time := { t := (k : ℚ) * dt0, dt := dt0, num_steps := k } } :
            MainState β) hcl
        refine ⟨2, loop_body stop_time dx N n_pes
          { job := job, time := { t := (k : ℚ) * dt0, dt := dt0, num_steps := k } }, ?_, ?_⟩
        · rw [run_loop_continue stop_time dx N n_pes 1
            ({ job := job, time := { t := (k : ℚ) * dt0, dt := dt0, num_steps := k } } :
              MainState β) hc]
          apply run_loop_exit
          rw [hbt]
          exact not_lt.2 hsf.le
        · rw [hbt]
          exact ⟨hsf.le, le_refl _, Or.inl rfl⟩
      · have hlt : (k : ℚ) * dt0 + dt0 < stop_time := not_le.1 hcl
        have hk1 : ((k + 1 : Nat) : ℚ) * dt0 = (k : ℚ) * dt0 + dt0 := by
          push_cast; ring
        obtain ⟨fuel, s, hrun, hres⟩ := ih
          (job.grid_step N n_pes ((dt0 / dx) * (dt0 / dx))) (k + 1)
          (by rw [hk1]; exact hlt.le)
          (by rw [hk1]; push_cast at hm; linarith)
        refine ⟨fuel + 1, s, ?_, hres⟩
        rw [run_loop_continue stop_time dx N n_pes fuel
          ({ job := job, time := { t := (k : ℚ) * dt0, dt := dt0, num_steps := k } } :
            MainState β) hc]
        have hb : loop_body stop_time dx N n_pes
            { job := job, time := { t := (k : ℚ) * dt0, dt := dt0, num_steps := k } } =
            { job := job.grid_step N n_pes ((dt0 / dx) * (dt0 / dx)),
              time := { t := ((k + 1 : Nat) : ℚ) * dt0, dt := dt0, num_steps := k + 1 } } := by
          unfold loop_body time_step clamp_dt
          simp only [ge_iff_le, if_neg hcl, hk1]
        rw [hb]
        exact hrun
    · exact ⟨1, _, run_loop_exit stop_time dx N n_pes 0
        ({ job := job, time := { t := (k : ℚ) * dt0, dt := dt0, num_steps := k } } :
          MainState β) hc, not_lt.1 hc, hk, Or.inr rfl⟩

/-- While no step is clamped the loop advances `t` by `dt` each iteration: if
every time `i * dt` with `i < k + j` is below the exit threshold and
`(k + j) * dt` is at or above it but below `stop_time`, then from `t = k * dt`
the loop exits after exactly `j` iterations with `t = (k + j) * dt`. -/
lemma run_loop_unclamped {β : Type} [DecidableEq β] (stop_time dx dt0 : ℚ) (N n_pes : Int)
    (hdt : 0 < dt0) :
    ∀ (j : Nat) (job : Job β ℚ) (k : Nat),
      (∀ i : Nat, i < k + j → (i : ℚ) * dt0 < safety_factor * stop_time) →
      safety_factor * stop_time ≤ ((k + j : Nat) : ℚ) * dt0 →
      ((k + j : Nat) : ℚ) * dt0 < stop_time →
      (run_loop stop_time dx N n_pes (j + 1)
          { job := job, time := { t := (k : ℚ) * dt0, dt := dt0, num_steps := k } }).map
          (fun s => s.time)
        = some { t := ((k + j : Nat) : ℚ) * dt0, dt := dt0, num_steps := k + j } := by
  intro j
  induction j with
  | zero =>
    intro job k _ hge _
    rw [run_loop_exit stop_time dx N n_pes 0 _ (not_lt.2 (by simpa using hge))]
    rfl
  | succ j ih =>
    intro job k hpre hge hlt
    have hc : (k : ℚ) * dt0 < safety_factor * stop_time := hpre k (by omega)
    have hk1 : ((k + 1 : Nat) : ℚ) * dt0 = (k : ℚ) * dt0 + dt0 := by
      push_cast; ring
    have hncl : ¬ stop_time ≤ (k : ℚ) * dt0 + dt0 := by
      have h1 : ((k + 1 : Nat) : ℚ) * dt0 ≤ ((k + (j + 1) : Nat) : ℚ) * dt0 := by
        apply mul_le_mul_of_nonneg_right _ hdt.le
        exact_mod_cast (by omega : k + 1 ≤ k + (j + 1))
      rw [hk1] at h1
      linarith
    rw [run_loop_continue stop_time dx N n_pes (j + 1)
      ({ job := job, time := { t := (k : ℚ) * dt0, dt := dt0, num_steps := k } } :
        MainState β) hc]
    have hb : loop_body stop_time dx N n_pes
        { job := job, time := { t := (k : ℚ) * dt0, dt := dt0, num_steps := k } } =
        { job := job.grid_step N n_pes ((dt0 / dx) * (dt0 / dx)),
          time := { t := ((k + 1 : Nat) : ℚ) * dt0, dt := dt0, num_steps := k + 1 } } := by
      unfold loop_body time_step clamp_dt
      simp only [ge_iff_le, if_neg hncl, hk1]
    rw [hb]
    have e : k + 1 + j = k + (j + 1) := by omega
    have := ih (job.grid_step N n_pes ((dt0 / dx) * (dt0 / dx))) (k + 1)
      (by rw [e]; exact hpre) (by rw [e]; exact hge) (by rw [e]; exact hlt)
    rw [e] at this
    exact this

/-- C9, as stated, fails at the configured values `stop_time = 1`,
`dx = 1/(NUM_POINTS - 1)`, `dt = 0.5 * dx = 1/2097150`: no step is ever clamped,
and the loop exits after 2097130 iterations with `t = 2097130/2097150`, the
first multiple of `dt` that reaches `safety_factor * stop_time`, which is less
than `stop_time`. -/
theorem time_loop_exits_before_stop_time :
    (run_loop config_stop_time config_dx (slice_size 1) 1 2097131
        { job := uniform_job, time := config_start }).map (fun s => s.time)
      = some { t := 2097130 / 2097150, dt := 1 / 2097150, num_steps := 2097130 } ∧
    (2097130 / 2097150 : ℚ) ≠ config_stop_time := by
  have hdt0 : (1 / 2 : ℚ) * config_dx = 1 / 2097150 := by
    unfold config_dx NUM_POINTS
    norm_num
  have hstart : config_start =
      { t := ((0 : Nat) : ℚ) * (1 / 2097150), dt := 1 / 2097150, num_steps := 0 } := by
    unfold config_start
    rw [hdt0]
    simp
  have h := @run_loop_unclamped (Fin 3) _ config_stop_time config_dx (1 / 2097150)
    (slice_size 1) 1 (by norm_num) 2097130 uniform_job 0
    (by
      intro i hi
      have hi2 : (i : ℚ) ≤ 2097129 := by
        have : i ≤ 2097129 := by omega
        exact_mod_cast this
      rw [safety_factor_val]
      unfold config_stop_time
      linarith)
    (by
      rw [safety_factor_val]
      unfold config_stop_time
      norm_num)
    (by
      unfold config_stop_time
      norm_num)
  rw [← hstart] at h
  constructor
  · rw [show (2097131 : Nat) = 2097130 + 1 from rfl, h]
    norm_num
  · unfold config_stop_time
    norm_num

/-- C9, amended: over the rationals, from `t = 0`, for every `stop_time > 0`
and initial `dt > 0`, with `safety_factor = 1 - 1e-5`, the time loop
terminates (it exits within some fuel, and in the same state within any
larger fuel) and never goes over `stop_time`: on exit
`safety_factor * stop_time ≤ t ≤ stop_time`, and either the last step was
clamped and `t = stop_time`, or no step was clamped and `t = num_steps * dt`. -/
theorem time_loop_terminates {β : Type} [DecidableEq β] (stop_time dx dt0 : ℚ) (N n_pes : Int)
    (job : Job β ℚ) (hstop : 0 < stop_time) (hdt : 0 < dt0) :
    ∃ fuel s,
      (∀ fuel2 : Nat, fuel ≤ fuel2 →
        run_loop stop_time dx N n_pes fuel2
          { job := job, time := { t := 0, dt := dt0, num_steps := 0 } } = some s) ∧
      safety_factor * stop_time ≤ s.time.t ∧ s.time.t ≤ stop_time ∧
      (s.time.t = stop_time ∨ s.time.t = (s.time.num_steps : ℚ) * dt0) := by
  obtain ⟨m, hm⟩ := exists_nat_ge (stop_time / dt0)
  have h0 : ((0 : Nat) : ℚ) * dt0 = 0 := by simp
  have h := @run_loop_terminates_from β _ stop_time dx dt0 N n_pes hstop m job 0
    (by rw [h0]; exact hstop.le)
    (by rw [h0, sub_zero]; exact (div_le_iff₀ hdt).1 hm)
  rw [h0] at h
  obtain ⟨fuel, s, hrun, hres⟩ := h
  exact ⟨fuel, s, run_loop_mono stop_time dx N n_pes fuel _ s hrun, hres⟩

/-- Witness of C9 (amended): `stop_time = 1` and `dt = 3/4`. -/
theorem time_loop_terminates_witness :
    ∃ fuel s,
      (∀ fuel2 : Nat, fuel ≤ fuel2 →
        run_loop 1 1 2 2 fuel2
          { job := uniform_job, time := { t := 0, dt := 3 / 4, num_steps := 0 } } = some s) ∧
      safety_factor * 1 ≤ s.time.t ∧ s.time.t ≤ 1 ∧
      (s.time.t = 1 ∨ s.time.t = (s.time.num_steps : ℚ) * (3 / 4)) :=
  time_loop_terminates 1 1 (3 / 4) 2 2 uniform_job (by norm_num) (by norm_num)

end Wave
